import Mathlib

/-!
Verification of the Bayesian sales-forecasting model in
`time_series_analysis_1/ts_2_analysis.ipynb`.

The notebook's numerical functions are embedded as Lean functions on `ℝ`:
JAX arrays become lists or index functions, `jnp.exp` becomes `Real.exp`,
and `jnp.floor`/`jnp.ceil` on a nonnegative quotient become `Int.floor`/
`Int.ceil` of the real division.  The patsy successive-difference
(backward-difference) contrast matrix is embedded by its entry formula:
entry (i, j) of `Diff().code_without_intercept(range(0, n)).matrix` is
`-(n - 1 - j)/n` when `i ≤ j` and `(j + 1)/n` when `i > j`.
-/

open Finset

noncomputable section

/-- Embedding of `periodic_rbf(x, mu, sigma)`: cyclic distance
`min(|x - mu|, 1 - |x - mu|)` fed into a Gaussian kernel. -/
def periodic_rbf (x mu sigma : ℝ) : ℝ :=
  let periodic_distance := min |x - mu| (1 - |x - mu|)
  Real.exp (-(periodic_distance ^ 2) / (2 * sigma ^ 2))

/-- Embedding of `jnp.linspace(a, b, n)` (evenly spaced, endpoints included;
a single point collapses to the start). -/
def linspace (a b : ℝ) (n : ℕ) : List ℝ :=
  if n = 1 then [a]
  else (List.range n).map (fun i => a + (i : ℝ) * (b - a) / ((n : ℝ) - 1))

/-- One row of the day-of-year basis of `compute_doy_basis`: the RBF values at
the `n_centers` month centers, re-centered by the row mean. -/
def doy_basis_row (x sigma : ℝ) (n_centers : ℕ) : List ℝ :=
  let month_centers :=
    linspace (1 / (2 * (n_centers : ℝ))) (1 - 1 / (2 * (n_centers : ℝ))) n_centers
  let row := month_centers.map (fun mu => periodic_rbf x mu sigma)
  row.map (fun v => v - row.sum / (row.length : ℝ))

/-- Embedding of `compute_doy_basis(yday_fraction, sigma, n_centers)`: one
centered basis row per observation.  The notebook performs no input
validation: empty inputs and non-positive widths are processed like any
other input. -/
def compute_doy_basis (yday_fraction : List ℝ) (sigma : ℝ) (n_centers : ℕ) :
    List (List ℝ) :=
  yday_fraction.map (fun x => doy_basis_row x sigma n_centers)

lemma sum_map_sub_const (l : List ℝ) (c : ℝ) :
    (l.map (fun v => v - c)).sum = l.sum - (l.length : ℝ) * c := by
  induction l with
  | nil => simp
  | cons a t ih =>
    simp only [List.map_cons, List.sum_cons, List.length_cons, ih]
    push_cast
    ring

lemma centered_sum_zero (L : List ℝ) :
    (L.map (fun v => v - L.sum / (L.length : ℝ))).sum = 0 := by
  rw [sum_map_sub_const]
  by_cases hL : L.length = 0
  · rw [List.length_eq_zero.mp hL]
    simp
  · have h0 : (L.length : ℝ) ≠ 0 := Nat.cast_ne_zero.mpr hL
    field_simp

lemma doy_basis_row_sum (x sigma : ℝ) (n : ℕ) : (doy_basis_row x sigma n).sum = 0 := by
  simp only [doy_basis_row]
  exact centered_sum_zero _

/-- C6: for every width > 0, every vector of day-of-year fractions in [0,1)
and every number of centers, each row of the centered seasonal basis matrix
returned by `compute_doy_basis` sums to zero in exact arithmetic. -/
theorem compute_doy_basis_rows_sum_zero (sigma : ℝ) (hs : 0 < sigma)
    (yday_fraction : List ℝ) (hx : ∀ x ∈ yday_fraction, 0 ≤ x ∧ x < 1)
    (n_centers : ℕ) (row : List ℝ)
    (hrow : row ∈ compute_doy_basis yday_fraction sigma n_centers) :
    row.sum = 0 := by
  simp only [compute_doy_basis, List.mem_map] at hrow
  obtain ⟨x, hxmem, rfl⟩ := hrow
  exact doy_basis_row_sum x sigma n_centers

theorem compute_doy_basis_rows_sum_zero_witness :
    (doy_basis_row ((1 : ℝ) / 2) 1 12).sum = 0 :=
  compute_doy_basis_rows_sum_zero 1 one_pos [(1 : ℝ) / 2]
    (by intro x hx; rw [List.mem_singleton] at hx; subst hx; norm_num) 12 _
    (by simp [compute_doy_basis])

/-- C5 (counterexample): the literal shift `x -> x + 1` does not leave
`periodic_rbf` unchanged: at `x = 9/10`, `center = 1/10`, `width = 1`
the two values differ, because `min(|x - mu|, 1 - |x - mu|)` turns negative
once `|x - mu| > 1`. -/
theorem periodic_rbf_shift_counterexample :
    periodic_rbf ((9 : ℝ) / 10 + 1) (1 / 10) 1 ≠ periodic_rbf ((9 : ℝ) / 10) (1 / 10) 1 := by
  simp only [periodic_rbf]
  have e1 : |(9 : ℝ) / 10 + 1 - 1 / 10| = 18 / 10 := by
    rw [abs_of_nonneg (by norm_num)]
    norm_num
  have e2 : |(9 : ℝ) / 10 - 1 / 10| = 8 / 10 := by
    rw [abs_of_nonneg (by norm_num)]
    norm_num
  rw [e1, e2, min_eq_right (by norm_num : (1 : ℝ) - 18 / 10 ≤ 18 / 10),
    min_eq_right (by norm_num : (1 : ℝ) - 8 / 10 ≤ 8 / 10)]
  intro h
  rw [Real.exp_eq_exp] at h
  norm_num at h

/-- C5 (amended): for x, center in [0,1) with width > 0, the shift
`x -> x + 1` leaves `periodic_rbf` unchanged provided `x - center ≤ 1/2`
(the counterexample above shows the restriction is necessary), and the
basis function equals 1 at its center. -/
theorem periodic_rbf_shift_and_center (x c w : ℝ) (hx0 : 0 ≤ x) (hx1 : x < 1)
    (hc0 : 0 ≤ c) (hc1 : c < 1) (hw : 0 < w) (hhalf : x - c ≤ 1 / 2) :
    periodic_rbf (x + 1) c w = periodic_rbf x c w ∧ periodic_rbf c c w = 1 := by
  constructor
  · simp only [periodic_rbf]
    have h1 : x + 1 - c = x - c + 1 := by ring
    have h2 : |x - c + 1| = x - c + 1 := abs_of_nonneg (by linarith)
    rw [h1, h2]
    rcases le_or_lt 0 (x - c) with hd | hd
    · have h3 : |x - c| = x - c := abs_of_nonneg hd
      have h4 : min (x - c + 1) (1 - (x - c + 1)) = -(x - c) := by
        rw [min_eq_right (by linarith)]
        ring
      have h5 : min (x - c) (1 - (x - c)) = x - c := min_eq_left (by linarith)
      rw [h3, h4, h5, neg_sq]
    · have h3 : |x - c| = -(x - c) := abs_of_neg hd
      have h4 : 1 - (x - c + 1) = -(x - c) := by ring
      have h5 : 1 - -(x - c) = x - c + 1 := by ring
      rw [h3, h4, h5, min_comm]
  · simp only [periodic_rbf]
    rw [sub_self, abs_zero, min_eq_left (by norm_num : (0 : ℝ) ≤ 1 - 0)]
    norm_num

theorem periodic_rbf_shift_and_center_witness :
    periodic_rbf ((1 : ℝ) / 4 + 1) 0 1 = periodic_rbf ((1 : ℝ) / 4) 0 1 ∧
      periodic_rbf (0 : ℝ) 0 1 = 1 :=
  periodic_rbf_shift_and_center (1 / 4) 0 1 (by norm_num) (by norm_num) (by norm_num)
    (by norm_num) (by norm_num) (by norm_num)

/-- Entry (i, j) of the patsy backward-difference contrast matrix
`Diff().code_without_intercept(range(0, n)).matrix` used for both the trend
knots and the 7 weekday levels. -/
def contrasts_sdif (n i j : ℕ) : ℝ :=
  if i ≤ j then -(((n : ℝ) - 1 - (j : ℝ)) / (n : ℝ)) else ((j : ℝ) + 1) / (n : ℝ)

/-- Row i of the matrix-vector product `contrasts_sdif_t . v` for an
(n-1)-vector v of innovations: the trajectory value at level i. -/
def sdif_traj (n : ℕ) (v : ℕ → ℝ) (i : ℕ) : ℝ :=
  ∑ j in Finset.range (n - 1), contrasts_sdif n i j * v j

lemma contrasts_sdif_succ_sub (n i j : ℕ) (hn : 1 ≤ n) :
    contrasts_sdif n (i + 1) j - contrasts_sdif n i j = if j = i then 1 else 0 := by
  have hne : (n : ℝ) ≠ 0 := Nat.cast_ne_zero.mpr (by omega)
  unfold contrasts_sdif
  rcases lt_trichotomy j i with h | h | h
  · rw [if_neg (by omega), if_neg (by omega), if_neg (by omega)]
    ring
  · rw [if_neg (by omega), if_pos (by omega), if_pos h]
    subst h
    field_simp
  · rw [if_pos (by omega), if_pos (by omega), if_neg (by omega)]
    ring

lemma sum_indicator_gt (n j : ℕ) (hj : j < n) :
    ∑ i in Finset.range n, (if j < i then (1 : ℝ) else 0) = (n : ℝ) - (j : ℝ) - 1 := by
  induction n with
  | zero => exact absurd hj (Nat.not_lt_zero j)
  | succ k ih =>
    rw [Finset.sum_range_succ]
    rcases Nat.lt_or_ge j k with h | h
    · rw [ih h, if_pos h]
      push_cast
      ring
    · have hjk : j = k := by omega
      subst hjk
      have hz : ∑ i in Finset.range j, (if j < i then (1 : ℝ) else 0) = 0 :=
        Finset.sum_eq_zero
          (fun i hi => if_neg (by rw [Finset.mem_range] at hi; omega))
      rw [hz, if_neg (lt_irrefl j)]
      push_cast
      ring

lemma contrasts_sdif_col_sum (n j : ℕ) (hn : 1 ≤ n) (hj : j < n) :
    ∑ i in Finset.range n, contrasts_sdif n i j = 0 := by
  have hne : (n : ℝ) ≠ 0 := Nat.cast_ne_zero.mpr (by omega)
  have hrw : ∀ i, contrasts_sdif n i j
      = (if j < i then (1 : ℝ) else 0) - ((n : ℝ) - 1 - (j : ℝ)) / (n : ℝ) := by
    intro i
    unfold contrasts_sdif
    rcases le_or_lt i j with h | h
    · rw [if_pos h, if_neg (not_lt.mpr h)]
      ring
    · rw [if_neg (not_le.mpr h), if_pos h]
      field_simp
      ring
  simp only [hrw]
  rw [Finset.sum_sub_distrib, sum_indicator_gt n j hj, Finset.sum_const,
    Finset.card_range, nsmul_eq_mul]
  field_simp
  ring

/-- C2 (counterexample): for n = 2 and innovation vector v = (1), the first
entry of the trajectory `contrasts_sdif . v` is -1/2, not zero. -/
theorem sdif_traj_first_value_counterexample :
    sdif_traj 2 (fun _ => (1 : ℝ)) 0 ≠ 0 := by
  simp only [sdif_traj, contrasts_sdif]
  norm_num [Finset.sum_range_one]

/-- C2 (amended): for every n ≥ 2 the successive-difference contrast matrix M
built for n levels satisfies: the elementwise successive differences of the
trajectory M.v equal the innovation vector v exactly, and the sum of the
trajectory's n entries is zero (each column of M sums to zero); the first
trajectory value is in general not zero. -/
theorem sdif_traj_increments_and_sum (n : ℕ) (hn : 2 ≤ n) (v : ℕ → ℝ) :
    (∀ i, i + 1 < n → sdif_traj n v (i + 1) - sdif_traj n v i = v i) ∧
      ∑ i in Finset.range n, sdif_traj n v i = 0 := by
  constructor
  · intro i hi
    unfold sdif_traj
    rw [← Finset.sum_sub_distrib]
    have key : ∀ j ∈ Finset.range (n - 1),
        contrasts_sdif n (i + 1) j * v j - contrasts_sdif n i j * v j
          = if j = i then (fun _ => v i) j else 0 := by
      intro j hj
      rw [← sub_mul, contrasts_sdif_succ_sub n i j (by omega)]
      by_cases h : j = i
      · rw [if_pos h, if_pos h, one_mul, h]
      · rw [if_neg h, if_neg h, zero_mul]
    rw [Finset.sum_congr rfl key,
      Finset.sum_ite_eq' (Finset.range (n - 1)) i (fun _ => v i),
      if_pos (Finset.mem_range.mpr (by omega))]
  · unfold sdif_traj
    rw [Finset.sum_comm]
    apply Finset.sum_eq_zero
    intro j hj
    rw [Finset.mem_range] at hj
    rw [← Finset.sum_mul, contrasts_sdif_col_sum n j (by omega) (by omega), zero_mul]

theorem sdif_traj_increments_and_sum_witness :
    (sdif_traj 2 (fun _ => (1 : ℝ)) 1 - sdif_traj 2 (fun _ => (1 : ℝ)) 0 = 1) ∧
      ∑ i in Finset.range 2, sdif_traj 2 (fun _ => (1 : ℝ)) i = 0 :=
  ⟨(sdif_traj_increments_and_sum 2 (by norm_num) (fun _ => (1 : ℝ))).1 0 (by norm_num),
    (sdif_traj_increments_and_sum 2 (by norm_num) (fun _ => (1 : ℝ))).2⟩

/-- One sampled value of every latent parameter of
`model_local_level_poisson`; the innovation and coefficient vectors are
index functions. -/
structure ModelParams where
  log_sigma : ℝ
  log_state_mean : ℝ
  log_state_delta : ℕ → ℝ
  wday_coefficients : ℕ → ℝ
  yday_rbf_width : ℝ
  yday_coefficients : ℕ → ℝ
  log_elasticity : ℝ

/-- Embedding of `sample_random_walk`: knot value k of the trajectory
`dot(contrasts_sdif_t, log_state_delta) * sigma + log_state_mean`
with `sigma = exp(log_sigma)`. -/
def sample_random_walk (n_states : ℕ) (p : ModelParams) (k : ℕ) : ℝ :=
  (∑ j in Finset.range (n_states - 1),
      contrasts_sdif n_states k j * p.log_state_delta j)
    * Real.exp p.log_sigma + p.log_state_mean

/-- Embedding of `idx_1 = jnp.floor(t / downsampling_factor)`. -/
def idx_floor (c t : ℕ) : ℤ := ⌊(t : ℝ) / (c : ℝ)⌋

/-- Embedding of `idx_2 = jnp.ceil(t / downsampling_factor)`. -/
def idx_ceil (c t : ℕ) : ℤ := ⌈(t : ℝ) / (c : ℝ)⌉

/-- Embedding of `sample_downsampled_random_walk` at observation index t:
linear interpolation between the bracketing knots `idx_1` and `idx_2` with
weight `t/c - idx_1`. -/
def sample_downsampled_random_walk (n_states c : ℕ) (p : ModelParams) (t : ℕ) : ℝ :=
  let idx_n_weight := (t : ℝ) / (c : ℝ)
  let weight_2 := idx_n_weight - ((idx_floor c t : ℤ) : ℝ)
  (1 - weight_2) * sample_random_walk n_states p (idx_floor c t).toNat
    + weight_2 * sample_random_walk n_states p (idx_ceil c t).toNat

/-- Embedding of `sample_wday_effect` at observation t: the weekday label
(1..7) selects a row of `contrasts_wday = Diff contrasts for 7 levels`,
which is dotted with the 6 weekday coefficients. -/
def sample_wday_effect (p : ModelParams) (wday : ℕ → ℕ) (t : ℕ) : ℝ :=
  ∑ j in Finset.range 6, contrasts_sdif 7 (wday t - 1) j * p.wday_coefficients j

/-- Dot product of a basis row with a coefficient vector. -/
def dotRow (row : List ℝ) (coef : ℕ → ℝ) : ℝ :=
  ∑ j in Finset.range row.length, row.getD j 0 * coef j

/-- Embedding of `sample_yday_effect` at observation t: the day-of-year
basis is recomputed at the sampled width and dotted with the 12 seasonal
coefficients. -/
def sample_yday_effect (p : ModelParams) (yday_fraction : ℕ → ℝ) (t : ℕ) : ℝ :=
  dotRow (doy_basis_row (yday_fraction t) p.yday_rbf_width 12) p.yday_coefficients

/-- Embedding of `elasticity = numpyro.deterministic(-1 * log_elasticity)`. -/
def elasticity (p : ModelParams) : ℝ := -1 * p.log_elasticity

/-- Embedding of `sample_price_effect`: centered log price times the
elasticity.  The model computes this value but does not add it to the
log-rate. -/
def sample_price_effect (p : ModelParams) (log_price_centered : ℕ → ℝ) (t : ℕ) : ℝ :=
  log_price_centered t * elasticity p

/-- Embedding of the Poisson rate `state` of `model_local_level_poisson`:
`exp(log_state_base + yday_effect + wday_effect)`.  The source computes
`price_effect` but leaves it out of the sum (the `+ price_effect` term is
commented out), and `log_price_centered` is an argument of the model that
the rate never reads. -/
def model_local_level_poisson_state (n_obs n_states c : ℕ) (p : ModelParams)
    (log_price_centered : ℕ → ℝ) (wday : ℕ → ℕ) (yday_fraction : ℕ → ℝ)
    (t : ℕ) : ℝ :=
  Real.exp ((if n_obs = n_states then sample_random_walk n_states p t
      else sample_downsampled_random_walk n_states c p t)
    + sample_yday_effect p yday_fraction t + sample_wday_effect p wday t)

/-- Embedding of the knot count of `prepare_model_arguments`:
`n_obs` when the factor is 1, else `int(floor(n_obs / factor) + 1)`. -/
def n_states_of (n c : ℕ) : ℕ :=
  if c = 1 then n else (⌊(n : ℝ) / (c : ℝ)⌋ + 1).toNat

/-- A concrete parameter draw used by the witnesses. -/
def exampleParams : ModelParams :=
  ⟨0, 0, fun _ => 1, fun _ => 1, 1, fun _ => 1, 0⟩

/-- C7: with downsampling factor 1 (knot count = observation count), the
interpolation step of the downsampled random walk is the identity: for
every volatility, baseline and innovation vector the trajectory equals the
direct random walk. -/
theorem downsampling_identity (n : ℕ) (p : ModelParams) (t : ℕ) (ht : t < n) :
    sample_downsampled_random_walk n 1 p t = sample_random_walk n p t := by
  have hf : idx_floor 1 t = (t : ℤ) := by
    unfold idx_floor
    rw [Nat.cast_one, div_one, Int.floor_natCast]
  have hc : idx_ceil 1 t = (t : ℤ) := by
    unfold idx_ceil
    rw [Nat.cast_one, div_one, Int.ceil_natCast]
  simp only [sample_downsampled_random_walk, hf, hc, Nat.cast_one, div_one,
    Int.toNat_natCast, Int.cast_natCast, sub_self]
  ring

theorem downsampling_identity_witness :
    sample_downsampled_random_walk 3 1 exampleParams 1
      = sample_random_walk 3 exampleParams 1 :=
  downsampling_identity 3 exampleParams 1 (by norm_num)

/-- C8: with a knot count K smaller than the observation count n and integer
compression factor c, the interpolated value at every knot-aligned index
t = c * k equals the k-th knot value exactly. -/
theorem interpolation_hits_knots (K n c k : ℕ) (p : ModelParams) (hc : 1 ≤ c)
    (hK : K < n) (hk : k < K) (hkn : c * k ≤ n - 1) :
    sample_downsampled_random_walk K c p (c * k) = sample_random_walk K p k := by
  have hc0 : (c : ℝ) ≠ 0 := Nat.cast_ne_zero.mpr (by omega)
  have hdiv : ((c * k : ℕ) : ℝ) / (c : ℝ) = (k : ℝ) := by
    push_cast
    rw [mul_comm, mul_div_assoc, div_self hc0, mul_one]
  have hf : idx_floor c (c * k) = (k : ℤ) := by
    unfold idx_floor
    rw [hdiv, Int.floor_natCast]
  have hcl : idx_ceil c (c * k) = (k : ℤ) := by
    unfold idx_ceil
    rw [hdiv, Int.ceil_natCast]
  simp only [sample_downsampled_random_walk, hf, hcl, hdiv, Int.toNat_natCast,
    Int.cast_natCast, sub_self]
  ring

theorem interpolation_hits_knots_witness :
    sample_downsampled_random_walk 2 3 exampleParams (3 * 1)
      = sample_random_walk 2 exampleParams 1 :=
  interpolation_hits_knots 2 5 3 1 exampleParams (by norm_num) (by norm_num)
    (by norm_num) (by norm_num)

lemma sample_random_walk_congr (K : ℕ) (p q : ModelParams)
    (h1 : p.log_sigma = q.log_sigma) (h2 : p.log_state_mean = q.log_state_mean)
    (h3 : p.log_state_delta = q.log_state_delta) (t : ℕ) :
    sample_random_walk K p t = sample_random_walk K q t := by
  unfold sample_random_walk
  rw [h1, h2, h3]

lemma sample_downsampled_random_walk_congr (K c : ℕ) (p q : ModelParams)
    (h1 : p.log_sigma = q.log_sigma) (h2 : p.log_state_mean = q.log_state_mean)
    (h3 : p.log_state_delta = q.log_state_delta) (t : ℕ) :
    sample_downsampled_random_walk K c p t = sample_downsampled_random_walk K c q t := by
  simp only [sample_downsampled_random_walk]
  rw [sample_random_walk_congr K p q h1 h2 h3 (idx_floor c t).toNat,
    sample_random_walk_congr K p q h1 h2 h3 (idx_ceil c t).toNat]

/-- C1: the Poisson rate equals exp(trend + seasonal + weekday effect) only:
two parameter draws that agree on everything except the elasticity
parameter, together with two arbitrary centered log-price vectors, always
give the same rate. -/
theorem poisson_rate_ignores_price (n K c : ℕ) (lp lq : ℕ → ℝ) (wd : ℕ → ℕ)
    (yf : ℕ → ℝ) (p q : ModelParams)
    (h1 : p.log_sigma = q.log_sigma) (h2 : p.log_state_mean = q.log_state_mean)
    (h3 : p.log_state_delta = q.log_state_delta)
    (h4 : p.wday_coefficients = q.wday_coefficients)
    (h5 : p.yday_rbf_width = q.yday_rbf_width)
    (h6 : p.yday_coefficients = q.yday_coefficients) (t : ℕ) :
    model_local_level_poisson_state n K c p lp wd yf t
        = model_local_level_poisson_state n K c q lq wd yf t ∧
      model_local_level_poisson_state n K c p lp wd yf t
        = Real.exp ((if n = K then sample_random_walk K p t
              else sample_downsampled_random_walk K c p t)
            + sample_yday_effect p yf t + sample_wday_effect p wd t) := by
  refine ⟨?_, rfl⟩
  have hw : sample_wday_effect p wd t = sample_wday_effect q wd t := by
    unfold sample_wday_effect
    rw [h4]
  have hy : sample_yday_effect p yf t = sample_yday_effect q yf t := by
    unfold sample_yday_effect
    rw [h5, h6]
  unfold model_local_level_poisson_state
  rw [hw, hy]
  by_cases hnk : n = K
  · rw [if_pos hnk, if_pos hnk, sample_random_walk_congr K p q h1 h2 h3 t]
  · rw [if_neg hnk, if_neg hnk,
      sample_downsampled_random_walk_congr K c p q h1 h2 h3 t]

/-- A second concrete draw differing from `exampleParams` only in the
elasticity parameter. -/
def exampleParamsElastic : ModelParams :=
  ⟨0, 0, fun _ => 1, fun _ => 1, 1, fun _ => 1, 5⟩

theorem poisson_rate_ignores_price_witness :
    model_local_level_poisson_state 1 1 1 exampleParams (fun _ => 5)
        (fun _ => 1) (fun _ => 0) 0
      = model_local_level_poisson_state 1 1 1 exampleParamsElastic (fun _ => 7)
        (fun _ => 1) (fun _ => 0) 0 :=
  (poisson_rate_ignores_price 1 1 1 (fun _ => 5) (fun _ => 7) (fun _ => 1)
    (fun _ => 0) exampleParams exampleParamsElastic rfl rfl rfl rfl rfl rfl 0).1

/-- C3: the deterministic transform actually used by the code is
`elasticity = -1 * log_elasticity`, which is not sign-constrained: the
draw `log_elasticity = -1` yields elasticity 1 > 0 and the draw
`log_elasticity = 1` yields elasticity -1 < 0, so the elasticity entering
the price effect takes both signs. -/
theorem elasticity_takes_both_signs :
    elasticity ⟨0, 0, fun _ => 0, fun _ => 0, 1, fun _ => 0, -1⟩ = 1 ∧
      elasticity ⟨0, 0, fun _ => 0, fun _ => 0, 1, fun _ => 0, 1⟩ = -1 := by
  constructor
  · unfold elasticity
    norm_num
  · unfold elasticity
    norm_num

/-- C4: the rate fed to the Poisson likelihood is the raw exponential of the
log-rate with no clipping: for every candidate ceiling B there is a
parameter draw whose rate exceeds B, so no firm numerical ceiling exists. -/
theorem poisson_rate_unbounded :
    ∀ B : ℝ, ∃ p : ModelParams,
      B < model_local_level_poisson_state 1 1 1 p (fun _ => 0) (fun _ => 1)
        (fun _ => 0) 0 := by
  intro B
  refine ⟨⟨0, B, fun _ => 0, fun _ => 0, 1, fun _ => 0, 0⟩, ?_⟩
  have hs : sample_random_walk 1 ⟨0, B, fun _ => 0, fun _ => 0, 1, fun _ => 0, 0⟩ 0 = B := by
    unfold sample_random_walk
    simp
  have hw : sample_wday_effect ⟨0, B, fun _ => 0, fun _ => 0, 1, fun _ => 0, 0⟩
      (fun _ => 1) 0 = 0 := by
    unfold sample_wday_effect
    simp
  have hy : sample_yday_effect ⟨0, B, fun _ => 0, fun _ => 0, 1, fun _ => 0, 0⟩
      (fun _ => 0) 0 = 0 := by
    unfold sample_yday_effect dotRow
    simp
  unfold model_local_level_poisson_state
  rw [if_pos rfl, hs, hw, hy, add_zero, add_zero]
  linarith [Real.add_one_le_exp B]

/-- C9: `compute_doy_basis` performs no input validation: an empty
observation vector is mapped to an empty matrix and a non-positive width is
processed like any other width (a full 12-column row is returned), instead
of an error being raised. -/
theorem compute_doy_basis_no_validation :
    compute_doy_basis [] (0 : ℝ) 12 = [] ∧
      (compute_doy_basis [(1 : ℝ) / 24] (-1) 12).length = 1 := by
  constructor
  · rfl
  · simp [compute_doy_basis]

lemma idx_floor_eq_natDiv (c t : ℕ) (hc : c ≠ 0) :
    idx_floor c t = ((t / c : ℕ) : ℤ) := by
  have hcpos : (0 : ℝ) < (c : ℝ) := by
    exact_mod_cast Nat.pos_of_ne_zero hc
  unfold idx_floor
  rw [Int.floor_eq_iff]
  constructor
  · rw [Int.cast_natCast, le_div_iff₀ hcpos]
    exact_mod_cast Nat.div_mul_le_self t c
  · rw [div_lt_iff₀ hcpos, Int.cast_natCast]
    have h1 : (c : ℝ) * ((t / c : ℕ) : ℝ) + ((t % c : ℕ) : ℝ) = (t : ℝ) := by
      exact_mod_cast Nat.div_add_mod t c
    have h2 : ((t % c : ℕ) : ℝ) < (c : ℝ) := by
      exact_mod_cast Nat.mod_lt t (Nat.pos_of_ne_zero hc)
    nlinarith [h1, h2]

lemma n_states_of_eq_div (n c : ℕ) (hc : 2 ≤ c) : n_states_of n c = n / c + 1 := by
  unfold n_states_of
  rw [if_neg (by omega)]
  have h := idx_floor_eq_natDiv c n (by omega)
  unfold idx_floor at h
  rw [h, show ((n / c : ℕ) : ℤ) + 1 = ((n / c + 1 : ℕ) : ℤ) by push_cast; ring,
    Int.toNat_natCast]

/-- C10 (counterexample): with n = 5 observations and factor c = 3 the knot
count is K = floor(5/3) + 1 = 2, yet at observation index t = 4 the ceiling
interpolation index is ceil(4/3) = 2, which is not strictly less than K:
the gather into the knot trajectory is out of bounds. -/
theorem interpolation_index_overflow :
    (1 ≤ 5 ∧ 2 ≤ 3 ∧ 4 < 5) ∧ ¬ idx_ceil 3 4 < (n_states_of 5 3 : ℤ) := by
  refine ⟨by norm_num, ?_⟩
  have h1 : idx_ceil 3 4 = 2 := by
    unfold idx_ceil
    rw [Int.ceil_eq_iff]
    constructor
    · push_cast
      norm_num
    · push_cast
      norm_num
  have h2 : n_states_of 5 3 = 2 := by
    rw [n_states_of_eq_div 5 3 (by norm_num)]
  rw [h1, h2]
  norm_num

/-- C10 (amended): for every n ≥ 1, c ≥ 2 and observation index t < n, with
K = floor(n/c) + 1 as computed by `prepare_model_arguments`, the floor
interpolation index is strictly below K and the ceiling index is at most K;
the ceiling index is strictly below K whenever n mod c ≤ 1 (the
counterexample above shows it can reach K otherwise). -/
theorem interpolation_indices_in_bounds (n c t : ℕ) (hn : 1 ≤ n) (hc : 2 ≤ c)
    (ht : t < n) :
    idx_floor c t < (n_states_of n c : ℤ) ∧
      idx_ceil c t ≤ (n_states_of n c : ℤ) ∧
      (n % c ≤ 1 → idx_ceil c t < (n_states_of n c : ℤ)) := by
  have hc0 : c ≠ 0 := by omega
  have hK : n_states_of n c = n / c + 1 := n_states_of_eq_div n c hc
  have hfl : idx_floor c t = ((t / c : ℕ) : ℤ) := idx_floor_eq_natDiv c t hc0
  have h3 : t / c ≤ n / c := Nat.div_le_div_right (le_of_lt ht)
  refine ⟨?_, ?_, ?_⟩
  · rw [hfl, hK]
    exact_mod_cast Nat.lt_succ_of_le h3
  · have h2 : idx_ceil c t ≤ idx_floor c t + 1 := by
      unfold idx_ceil idx_floor
      exact Int.ceil_le_floor_add_one _
    rw [hfl] at h2
    have h4 : ((t / c : ℕ) : ℤ) + 1 ≤ ((n / c + 1 : ℕ) : ℤ) := by
      exact_mod_cast Nat.succ_le_succ h3
    rw [hK]
    linarith [h2, h4]
  · intro hmod
    have hcpos : (0 : ℝ) < (c : ℝ) := by
      exact_mod_cast Nat.pos_of_ne_zero hc0
    have hle : t ≤ c * (n / c) := by
      have hdm : c * (n / c) + n % c = n := Nat.div_add_mod n c
      generalize hgen : c * (n / c) = m at hdm ⊢
      generalize hgen2 : n % c = r at hdm hmod
      omega
    have hceil : idx_ceil c t ≤ ((n / c : ℕ) : ℤ) := by
      unfold idx_ceil
      rw [Int.ceil_le, Int.cast_natCast, div_le_iff₀ hcpos]
      exact_mod_cast hle.trans (Nat.mul_comm c (n / c)).le
    have h5 : ((n / c : ℕ) : ℤ) < ((n / c + 1 : ℕ) : ℤ) := by
      exact_mod_cast Nat.lt_succ_self (n / c)
    rw [hK]
    linarith [hceil, h5]

theorem interpolation_indices_in_bounds_witness :
    idx_floor 3 5 < (n_states_of 6 3 : ℤ) ∧
      idx_ceil 3 5 ≤ (n_states_of 6 3 : ℤ) ∧
      (6 % 3 ≤ 1 → idx_ceil 3 5 < (n_states_of 6 3 : ℤ)) :=
  interpolation_indices_in_bounds 6 3 5 (by norm_num) (by norm_num) (by norm_num)

end
